import Mathlib

/-!
Verification of the graph examples repository (ring graph, file dependencies,
kevin-bacon, hawick circuits) against its natural-language specification.

Definitions are shallow embeddings of the C++ sources under `src/`.  Algorithms
that live in the Boost library rather than in this repository (Dijkstra, BFS,
circuit enumeration) are modelled from the specification and are marked as such
in their doc comments.
-/

namespace RingGraph

/-- Size of the value space of `std::size_t` (64-bit). -/
def size_t_mod : Nat := 2 ^ 64

/-- Embedding of `source(e, g)` from `implicit_graph.cpp`: the first vertex of
the edge pair. -/
def src (e : Nat × Nat) : Nat := e.1

/-- Embedding of `target(e, g)` from `implicit_graph.cpp`: the second vertex of
the edge pair. -/
def tgt (e : Nat × Nat) : Nat := e.2

/-- Embedding of `ring_incident_edge_iterator::dereference` from
`implicit_graph.cpp`: at offset `p` (0 or 1) on vertex `u`, yields the edge
`(u, v)` where `v = n-1` when `u = 0 ∧ p = 1`, otherwise
`(u + ring_offset[p]) % n` computed in `std::size_t` arithmetic
(`ring_offset = [1, -1]`, so `-1` becomes `2^64 - 1`). -/
def incDeref (n u p : Nat) : Nat × Nat :=
  if u = 0 ∧ p = 1 then (u, n - 1)
  else (u, (u + (if p = 0 then 1 else size_t_mod - 1)) % size_t_mod % n)

/-- Embedding of the end offset of `ring_incident_edge_iterator`: per the
constructor taking `iterator_end`, it is `2` when `n > 2` and `1` otherwise. -/
def incEnd (n : Nat) : Nat := if 2 < n then 2 else 1

/-- Embedding of `out_edges(u, g)`: the sequence of edges produced by
`ring_incident_edge_iterator` from offset `0` up to the end offset. -/
def out_edges (n u : Nat) : List (Nat × Nat) :=
  (List.range (incEnd n)).map (incDeref n u)

/-- Embedding of `out_degree(u, g)` from `implicit_graph.cpp`: the constant 2,
regardless of the vertex or the graph size. -/
def out_degree (n u : Nat) : Nat := 2

/-- Embedding of `num_vertices(g)`. -/
def num_vertices (n : Nat) : Nat := n

/-- Embedding of `ring_edge_iterator`: it iterates the vertices from 0 up to
`n`, except for `n = 2` where it stops after vertex 0; dereferencing yields the
first element of `out_edges` of the current vertex, i.e. `incDeref n v 0`. -/
def edges (n : Nat) : List (Nat × Nat) :=
  (List.range (if n = 2 then 1 else n)).map (fun v => incDeref n v 0)

/-- Embedding of `num_edges(g)` from `implicit_graph.cpp`:
`g.n() == 2 ? 1 : g.n()`. -/
def num_edges (n : Nat) : Nat := if n = 2 then 1 else n

/-- Embedding of `edge(u, v, g)` from `implicit_graph.cpp` (the
AdjacencyMatrix query).  The C++ code is
`if ((u == v + 1 || v == u + 1) && u > 0 && u < num_vertices(g) && v > 0 &&
v < num_vertices(g)) return {(u,v), true}; else return {edge_descriptor(),
false};` where a default-constructed `edge_descriptor` is the pair `(0, 0)`. -/
def edgeQuery (n u v : Nat) : (Nat × Nat) × Bool :=
  if (u = v + 1 ∨ v = u + 1) ∧ 0 < u ∧ u < num_vertices n ∧ 0 < v ∧ v < num_vertices n
  then ((u, v), true)
  else ((0, 0), false)

/-- Rounding of a natural number (here: a `size_t` sum) to IEEE-754 double
precision: round to nearest with ties to even at a 53-bit significand.
Values below `2^53` are exact; larger values are rounded to a multiple of the
unit in the last place `2^(log2 m - 52)`.  The inputs arising here are below
`2^64`, far inside the double exponent range, so no overflow occurs. -/
def roundDouble (m : Nat) : Nat :=
  if m < 2 ^ 53 then m
  else
    let e := m.log2 - 52
    let q := m / 2 ^ e
    let r := m % 2 ^ e
    if 2 ^ e < 2 * r ∨ (2 * r = 2 ^ e ∧ q % 2 = 1) then (q + 1) * 2 ^ e
    else q * 2 ^ e

/-- Embedding of `edge_weight_map::operator[]` from `implicit_graph.cpp`:
`(e.first + e.second) / 2.0`.  The sum `e.first + e.second` is `size_t`
addition, wrapping modulo `2^64`; the wrapped sum is then converted to
`double` (rounding to nearest at 53 significant bits) and divided by `2.0`,
which is exact in binary floating point; the final division is therefore
modelled as exact division in `ℚ`. -/
def edge_weight (e : Nat × Nat) : Rat :=
  ((roundDouble ((e.1 + e.2) % size_t_mod)) : Rat) / 2

/-- Embedding of `get(edge_weight, g, e)`: it builds the (stateless) weight map
and subscripts it, so it is `edge_weight_map::operator[]` applied to `e`. -/
def getEdgeWeight (n : Nat) (e : Nat × Nat) : Rat := edge_weight e

/-- Adjacency on the ring as the specification states it (spec wording for
claim C1, to compare with the source's `edgeQuery`): `u` and `v` are adjacent
iff their indices differ by 1 or `{u, v}` is the wraparound pair `{0, n-1}`. -/
def ringAdjacentSpec (n u v : Nat) : Prop :=
  (u + 1 = v ∨ v + 1 = u) ∨
  (u = 0 ∧ v = n - 1) ∨ (v = 0 ∧ u = n - 1)

instance (n u v : Nat) : Decidable (ringAdjacentSpec n u v) := by
  unfold ringAdjacentSpec; infer_instance

end RingGraph

namespace Dijkstra

/-- Modelled from the spec: `boost::dijkstra_shortest_paths` is Boost library
code and not among this repository's sources (only its call site in
`implicit_graph.cpp` is).  Following the specification: per-vertex tentative
distance (`none` models infinity) and predecessor, initialized to
`(∞, self)` except the source `(0, source)`; repeatedly settle the unsettled
vertex of minimum tentative distance and relax each outgoing edge `(u,v,w)`:
if `dist[u] + w < dist[v]` then update `dist[v]` and `pred[v]`. -/
structure DState where
  dist : List (Option Rat)
  pred : List Nat
  settled : List Bool

/-- Comparison step of the minimum-tentative-distance scan: keep the better of
candidate index `i` and the current best. -/
def better (dist : List (Option Rat)) (i : Nat) (best : Option Nat) : Option Nat :=
  match dist.getD i none, best with
  | none, _ => best
  | some _, none => some i
  | some d, some b =>
    match dist.getD b none with
    | none => some i
    | some db => if d < db then some i else best

/-- Index of the unsettled vertex of minimum tentative distance, if any
unsettled vertex has a finite distance. -/
def findMin (dist : List (Option Rat)) (settled : List Bool) : Option Nat :=
  (List.range dist.length).foldl
    (fun best i => if settled.getD i true then best else better dist i best) none

/-- Relaxation of one outgoing edge `(v, w)` of the settled vertex `u` whose
distance is `du`: update `dist[v]`/`pred[v]` when `du + w` improves. -/
def relaxEdge (u : Nat) (du : Rat) (dp : List (Option Rat) × List Nat)
    (vw : Nat × Rat) : List (Option Rat) × List Nat :=
  match dp.1.getD vw.1 none with
  | none => (dp.1.set vw.1 (some (du + vw.2)), dp.2.set vw.1 u)
  | some dv =>
    if du + vw.2 < dv then (dp.1.set vw.1 (some (du + vw.2)), dp.2.set vw.1 u)
    else dp

/-- One settle-and-relax round. -/
def dstep (adj : Nat → List (Nat × Rat)) (st : DState) : DState :=
  match findMin st.dist st.settled with
  | none => st
  | some u =>
    let du := (st.dist.getD u none).getD 0
    let dp := (adj u).foldl (relaxEdge u du) (st.dist, st.pred)
    ⟨dp.1, dp.2, st.settled.set u true⟩

/-- Iterated rounds (one per vertex suffices: each round settles a vertex). -/
def dloop (adj : Nat → List (Nat × Rat)) : Nat → DState → DState
  | 0, st => st
  | k + 1, st => dloop adj k (dstep adj st)

/-- Full single-source run on `n` vertices from source `s`. -/
def dijkstra (n : Nat) (adj : Nat → List (Nat × Rat)) (s : Nat) : DState :=
  dloop adj n
    ⟨(List.range n).map (fun v => if v = s then some 0 else none),
     List.range n, List.replicate n false⟩

/-- Weighted out-edge lists of the ring graph, assembled from the source
embedding: targets of `out_edges` paired with the computed edge weights. -/
def ringAdjW (n u : Nat) : List (Nat × Rat) :=
  (RingGraph.out_edges n u).map
    (fun e => (RingGraph.tgt e, RingGraph.getEdgeWeight n e))

end Dijkstra

namespace FileDeps

/-- Embedding of the `used_by` edge array of `file_dependencies.cpp`, with the
vertices numbered by the `files_e` enumeration: dax_h = 0, yow_h = 1,
boz_h = 2, zow_h = 3, foo_cpp = 4, foo_o = 5, bar_cpp = 6, bar_o = 7,
libfoobar_a = 8, zig_cpp = 9, zig_o = 10, zag_cpp = 11, zag_o = 12,
libzigzag_a = 13, killerapp = 14. -/
def usedBy : List (Nat × Nat) :=
  [(0, 4), (0, 6), (0, 1), (1, 6), (1, 11), (2, 6), (2, 9), (2, 11), (3, 4),
   (4, 5), (5, 8), (6, 7), (7, 8), (8, 13), (9, 10), (10, 13), (11, 12),
   (12, 13), (13, 14)]

/-- Embedding of `N`, the vertex count of the dependency graph. -/
def numV : Nat := 15

/-- In-edges of a vertex of the stored bidirectional graph built from
`used_by`: the edges whose target is `v`, in insertion order. -/
def in_edges (v : Nat) : List (Nat × Nat) := usedBy.filter (fun e => e.2 = v)

/-- Embedding of `in_degree(v, g)`. -/
def in_degree (v : Nat) : Nat := (in_edges v).length

/-- One iteration of the parallel-compilation loop of `file_dependencies.cpp`
(lines 128-139) for the vertex `v` taken from the topological order, with the
result slot indexed by the vertex itself — the intended, invariant-preserving
version the specification prescribes.  (The C++ as written assigns
`time[*i]` where `i` is a `std::list` iterator that is declared at line 117
and never initialized, which is undefined behavior; see the corresponding
claim record.)  If `v` has in-edges, `time[v]` becomes one plus the running
maximum of `time[source(e)]` over its in-edges, else the slot keeps its
initial value 0. -/
def levelStep (time : List Nat) (v : Nat) : List Nat :=
  if 0 < in_degree v then
    time.set v ((in_edges v).foldl (fun m e => max (time.getD e.1 0) m) 0 + 1)
  else time

/-- The whole parallel-compilation loop: fold `levelStep` over the
topological order `make_order`, starting from `std::vector<int> time(N, 0)`. -/
def levelSchedule (order : List Nat) : List Nat :=
  order.foldl levelStep (List.replicate numV 0)

/-- Validity of a topological order of the dependency graph, as the
specification assumes it: every vertex exactly once, and every edge's source
strictly before its target. -/
def ValidTopo (order : List Nat) : Prop :=
  order.Nodup ∧ (∀ v, v < numV → v ∈ order) ∧ (∀ v ∈ order, v < numV) ∧
  ∀ e ∈ usedBy, order.indexOf e.1 < order.indexOf e.2

instance (order : List Nat) : Decidable (ValidTopo order) := by
  unfold ValidTopo; infer_instance

end FileDeps

namespace KevinBacon

/-- The stored co-appearance graph being built by `kevin-bacon.cpp`: the
per-vertex name property (indexed by vertex), the edge list, and the
name-to-vertex lookup map (`std::map<std::string, Vertex> actors`, modelled as
an association list — only lookup and insert are used). -/
structure BGraph where
  names : List String
  edges : List (Nat × Nat)
  actors : List (String × Nat)

/-- Embedding of the lookup-or-insert step of `kevin-bacon.cpp` (lines 75-81
and 85-91): probe the `actors` map; on a miss, `add_vertex` appends a new
vertex (its index is the current vertex count), the vertex's name property is
set to the name, and the map entry is completed. -/
def addActor (st : BGraph) (nm : String) : BGraph × Nat :=
  match st.actors.find? (fun p => p.1 == nm) with
  | some p => (st, p.2)
  | none =>
    ({ names := st.names ++ [nm], edges := st.edges,
       actors := st.actors ++ [(nm, st.names.length)] }, st.names.length)

/-- Embedding of the per-record body of the input loop of `kevin-bacon.cpp`
(lines 69-97): look up or insert the actor and the co-actor, then
`add_edge(u, v, g)`.  `add_edge` itself is Boost library code, not part of
this repository's sources; modelled from the spec (section 4.2):
`add_edge(u,v)` appends an edge and returns (descriptor, inserted-flag) — and
for this graph type every call appends, so one edge is appended per record.
(The record's movie name is attached to the edge as a property and plays no
role in the graph structure.) -/
def processRecord (st : BGraph) (r : String × String × String) : BGraph :=
  let p1 := addActor st r.1
  let p2 := addActor p1.1 r.2.2
  { names := p2.1.names, edges := p2.1.edges ++ [(p1.2, p2.2)],
    actors := p2.1.actors }

/-- The whole incremental build over a sequence of well-formed
(actor; movie; co-actor) records, starting from the empty graph. -/
def buildGraph (rs : List (String × String × String)) : BGraph :=
  rs.foldl processRecord ⟨[], [], []⟩

/-- Well-formedness invariant of the builder state: vertex names are pairwise
distinct, every map entry points at the vertex carrying its name, and the map
covers exactly the names present. -/
def Inv (st : BGraph) : Prop :=
  st.names.Nodup ∧
  (∀ p ∈ st.actors, st.names.get? p.2 = some p.1) ∧
  (∀ nm, nm ∈ st.names ↔ ∃ p ∈ st.actors, p.1 = nm)

end KevinBacon

namespace Hawick

/-- Modelled from the spec: `boost::hawick_circuits` / `hawick_unique_circuits`
are Boost library code and not among this repository's sources (only the test
harness calling them is).  Following the specification's description of
elementary-circuit enumeration (section 4.5): for each start vertex `s`,
processed in increasing index order, run a depth-first search from `s`
restricted to vertices with index `≥ s` (to avoid duplicate reports across
starts), revisiting no vertex of the current path; whenever the walk reaches
`s` again, report the accumulated path as a circuit.  The per-vertex
blocked-flag bookkeeping described there prunes re-exploration of dead
subtrees but does not alter which circuits are reported, and is not modelled.
`path` holds the current path in reverse order, `fuel` bounds the recursion
depth (a path never repeats a vertex, so `n` suffices). -/
def circuitsFrom (adj : Nat → List Nat) (s : Nat) :
    Nat → Nat → List Nat → List (List Nat)
  | 0, _, _ => []
  | fuel + 1, u, path =>
    (adj u).flatMap (fun v =>
      if v = s then [path.reverse]
      else if s ≤ v ∧ v ∉ path then circuitsFrom adj s fuel v (v :: path)
      else [])

/-- All-circuits mode: every start vertex `0, ..., n-1` in increasing order. -/
def hawickCircuits (n : Nat) (adj : Nat → List Nat) : List (List Nat) :=
  (List.range n).flatMap (fun s => circuitsFrom adj s n s [s])

/-- Smallest vertex index on a circuit. -/
def minVert (c : List Nat) : Nat := c.foldl min (c.headD 0)

/-- All rotations of a circuit. -/
def rotations (c : List Nat) : List (List Nat) :=
  (List.range c.length).map (fun i => c.drop i ++ c.take i)

/-- Canonical representative of a rotation-equivalence class: the rotation
that puts the smallest vertex index first (spec: "canonicalized by, e.g.,
smallest-index-first"). -/
def canonical (c : List Nat) : List Nat :=
  ((rotations c).filter (fun r => r.headD 0 == minVert c)).headD c

/-- Modelled from the spec: unique-circuits mode keeps one representative per
rotation-equivalence class of reported circuits. -/
def hawickUniqueCircuits (n : Nat) (adj : Nat → List Nat) : List (List Nat) :=
  ((hawickCircuits n adj).map canonical).dedup

/-- The directed cycle graph of length `k`: each vertex `v` has the single
out-neighbor `(v+1) mod k`; its only elementary cycle is
`0 → 1 → ... → k-1 → 0`, of length `k`. -/
def cycleAdj (k : Nat) : Nat → List Nat := fun v => [(v + 1) % k]

end Hawick

namespace BFS

/-- Modelled from the spec: `boost::breadth_first_search` is Boost library
code and not among this repository's sources (only its call site and visitor
in `kevin-bacon.cpp` are).  Following the specification: the search explores
vertices in non-decreasing hop-distance order from the source, level by
level; each time a scanned edge leads to an undiscovered vertex, exactly one
tree-edge event fires.  The state holds the distance array written by the
`bacon_number_recorder` visitor (`none` models an unset entry) and the list
of tree edges in the order their events fired. -/
structure State where
  dist : Nat → Option Nat
  tree : List (Nat × Nat)

/-- Processing of one scanned edge `(u, v)` with `u` in the current frontier:
if `v` is undiscovered, fire the tree-edge event — the embedding of
`bacon_number_recorder::tree_edge` of `kevin-bacon.cpp` (lines 28-34), which
performs `d[v] = d[u] + 1` — record the tree edge, and append `v` to the next
frontier. -/
def visit (q : State × List Nat) (e : Nat × Nat) : State × List Nat :=
  match q.1.dist e.2 with
  | some _ => q
  | none =>
    (⟨Function.update q.1.dist e.2 (some ((q.1.dist e.1).getD 0 + 1)),
      q.1.tree ++ [e]⟩, q.2 ++ [e.2])

/-- One BFS level: scan every out-edge of every frontier vertex, in order,
collecting the next frontier. -/
def level (adj : Nat → List Nat) (st : State) (frontier : List Nat) :
    State × List Nat :=
  (frontier.flatMap (fun u => (adj u).map (fun v => (u, v)))).foldl visit (st, [])

/-- State and frontier after `d` BFS levels from source `s`; initially only
the source is discovered, at distance 0 (`bacon_number[src] = 0`). -/
def run (adj : Nat → List Nat) (s : Nat) : Nat → State × List Nat
  | 0 => (⟨fun v => if v = s then some 0 else none, []⟩, [s])
  | d + 1 => level adj (run adj s d).1 (run adj s d).2

/-- The full search on an `n`-vertex graph: `n` levels always suffice. -/
def bfs (n : Nat) (adj : Nat → List Nat) (s : Nat) : State := (run adj s n).1

/-- Walks of the adjacency structure: `Reaches adj s v k` holds when some
walk of exactly `k` edges leads from `s` to `v`. -/
inductive Reaches (adj : Nat → List Nat) (s : Nat) : Nat → Nat → Prop
  | refl : Reaches adj s s 0
  | step {u v k} : Reaches adj s u k → v ∈ adj u → Reaches adj s v (k + 1)

/-- Reachability from the source. -/
def Reachable (adj : Nat → List Nat) (s v : Nat) : Prop :=
  ∃ k, Reaches adj s v k

/-- `k` is the minimum number of edges on any path from `s` to `v`. -/
def IsShortest (adj : Nat → List Nat) (s v k : Nat) : Prop :=
  Reaches adj s v k ∧ ∀ j, Reaches adj s v j → k ≤ j

/-- Invariant of the level-synchronous search after `d` levels: the distance
array holds exactly the true shortest distances up to `d`, the frontier is
exactly the distance-`d` sphere, every recorded tree edge is a real edge
whose target's distance is one more than its source's, and every discovered
non-source vertex has exactly one tree edge pointing at it. -/
def Inv (adj : Nat → List Nat) (s d : Nat) (p : State × List Nat) : Prop :=
  (∀ v k, p.1.dist v = some k ↔ (IsShortest adj s v k ∧ k ≤ d)) ∧
  (∀ v, v ∈ p.2 ↔ IsShortest adj s v d) ∧
  (∀ e ∈ p.1.tree, e.2 ∈ adj e.1 ∧
      ∃ k, p.1.dist e.1 = some k ∧ p.1.dist e.2 = some (k + 1)) ∧
  (∀ v, (p.1.tree.filter (fun e => e.2 == v)).length =
      if v ≠ s ∧ (p.1.dist v).isSome then 1 else 0)

/-- Invariant maintained along the edge scan of one level (`st` is the state
the level started from, `d` the level's distance): a vertex's distance is
set iff it was set before the level or the vertex was just discovered (then
at `d + 1`); newly discovered vertices were undiscovered and have a
distance-`d` in-neighbor; tree edges are real and consistent; each newly
discovered vertex accounts for exactly one new tree edge. -/
def Mid (adj : Nat → List Nat) (s d : Nat) (st : State)
    (q : State × List Nat) : Prop :=
  (∀ v k, q.1.dist v = some k ↔
      (st.dist v = some k ∨ (v ∈ q.2 ∧ k = d + 1))) ∧
  (∀ v ∈ q.2, st.dist v = none) ∧
  (∀ v ∈ q.2, ∃ u, IsShortest adj s u d ∧ v ∈ adj u) ∧
  (∀ e ∈ q.1.tree, e.2 ∈ adj e.1 ∧
      ∃ k, q.1.dist e.1 = some k ∧ q.1.dist e.2 = some (k + 1)) ∧
  (∀ v, (q.1.tree.filter (fun e => e.2 == v)).length =
      (st.tree.filter (fun e => e.2 == v)).length +
        (if v ∈ q.2 then 1 else 0))

end BFS

namespace BFS

/-- Concrete three-vertex graph `0 → 1 → 2` used to instantiate the BFS
correctness statement. -/
def pathAdj : Nat → List Nat
  | 0 => [1]
  | 1 => [2]
  | _ => []

end BFS


namespace RingGraph

lemma incDeref_zero {n v : Nat} (hv : v < n) (hmod : n < size_t_mod) :
    incDeref n v 0 = (v, (v + 1) % n) := by
  have hlt : v + 1 < size_t_mod := by omega
  simp [incDeref, Nat.mod_eq_of_lt hlt]

lemma incDeref_one_pos {n u : Nat} (hu : 0 < u) (hun : u < n) (hmod : n < size_t_mod) :
    incDeref n u 1 = (u, u - 1) := by
  have h1 : u + (size_t_mod - 1) = (u - 1) + size_t_mod := by
    have : 1 ≤ size_t_mod := by norm_num [size_t_mod]
    omega
  have h2 : u - 1 < size_t_mod := by omega
  have h3 : u - 1 < n := by omega
  simp [incDeref, hu.ne', h1, Nat.add_mod_right, Nat.mod_eq_of_lt h2, Nat.mod_eq_of_lt h3]

lemma incDeref_zero_one {n : Nat} : incDeref n 0 1 = (0, n - 1) := by
  simp [incDeref]

lemma length_out_edges (n u : Nat) : (out_edges n u).length = incEnd n := by
  simp [out_edges]

lemma roundDouble_small {m : Nat} (h : m < 2 ^ 53) : roundDouble m = m := by
  rw [roundDouble, if_pos h]

lemma out_edges_src_tgt {n u : Nat} (hu : u < n) {e : Nat × Nat}
    (he : e ∈ out_edges n u) : e.1 = u ∧ e.2 < n := by
  rcases List.mem_map.mp he with ⟨p, hp, rfl⟩
  unfold incDeref
  split
  · exact ⟨rfl, by omega⟩
  · exact ⟨rfl, Nat.mod_lt _ (by omega)⟩

end RingGraph

/-- Claim C1 (code bug evaluation).  On the ring graph with `n = 5`, the
vertices 0 and 1 (and likewise 0 and n-1 = 4) are adjacent per the
specification and the corresponding edges appear in `out_edges 0`, yet the
AdjacencyMatrix query `edge` reports `found = false` for `(0,1)`, `(0,4)` and
`(4,0)`; the query only answers `true` away from vertex 0, e.g. for `(1,2)`.
So `edge(u,v)` is neither "true iff adjacent on the ring" nor consistent with
`out_edges` membership. -/
theorem ring_edge_query_bug :
    RingGraph.ringAdjacentSpec 5 0 1 ∧ ((0, 1) ∈ RingGraph.out_edges 5 0) ∧
    (RingGraph.edgeQuery 5 0 1).2 = false ∧
    RingGraph.ringAdjacentSpec 5 0 4 ∧ ((0, 4) ∈ RingGraph.out_edges 5 0) ∧
    (RingGraph.edgeQuery 5 0 4).2 = false ∧
    (RingGraph.edgeQuery 5 4 0).2 = false ∧
    (RingGraph.edgeQuery 5 1 2).2 = true := by
  decide

/-- Claim C4 (counterexample).  At the degenerate size `n = 2` (and likewise
`n = 1`), `out_degree` still reports 2 but `out_edges` yields a single edge,
so `out_degree(u) == |out_edges(u)|` fails: the two halves of the claim
contradict each other at the degenerate sizes. -/
theorem ring_degree_counterexample :
    RingGraph.out_degree 2 0 = 2 ∧ (RingGraph.out_edges 2 0).length = 1 ∧
    RingGraph.out_degree 2 0 ≠ (RingGraph.out_edges 2 0).length ∧
    RingGraph.out_degree 1 0 = 2 ∧ (RingGraph.out_edges 1 0).length = 1 := by
  decide

/-- Claim C4 (amended).  For every ring graph of size `n ≥ 1` and vertex
`u < n`: `out_degree u` is the constant 2, `out_edges u` yields 2 edges when
`n ≥ 3` and a single edge at the degenerate sizes `n = 1` (the self-loop) and
`n = 2` (the shared edge); hence the Incidence contract
`out_degree(u) == |out_edges(u)|` holds exactly when `n ≥ 3`. -/
theorem ring_degree_amended (n u : Nat) (h1 : 1 ≤ n) (hu : u < n) :
    RingGraph.out_degree n u = 2 ∧
    (RingGraph.out_edges n u).length = (if 2 < n then 2 else 1) ∧
    (RingGraph.out_degree n u = (RingGraph.out_edges n u).length ↔ 2 < n) := by
  refine ⟨rfl, ?_, ?_⟩
  · rw [RingGraph.length_out_edges]; rfl
  · rw [RingGraph.length_out_edges, RingGraph.incEnd]
    constructor
    · intro h
      by_contra hn
      simp [hn, RingGraph.out_degree] at h
    · intro h; simp [h, RingGraph.out_degree]

/-- Witness for `ring_degree_amended` at `n = 5`, `u = 0`. -/
theorem ring_degree_amended_witness :
    1 ≤ 5 ∧ 0 < 5 ∧
    (RingGraph.out_degree 5 0 = 2 ∧
     (RingGraph.out_edges 5 0).length = (if 2 < 5 then 2 else 1) ∧
     (RingGraph.out_degree 5 0 = (RingGraph.out_edges 5 0).length ↔ 2 < 5)) :=
  ⟨by decide, by decide, ring_degree_amended 5 0 (by decide) (by decide)⟩

/-- Claim C7.  For every ring graph of size `n ≥ 1` (with `n` a `size_t`
value): `num_edges = n` except 1 when `n = 2`, and `edges()` yields exactly
`num_edges` descriptors, one per vertex `v` in increasing index order, namely
`(v, (v+1) mod n)` — except `n = 2` where only vertex 0's edge is yielded —
with no edge repeated. -/
theorem ring_edges_enumeration (n : Nat) (h1 : 1 ≤ n) (h2 : n < RingGraph.size_t_mod) :
    RingGraph.num_edges n = (if n = 2 then 1 else n) ∧
    RingGraph.edges n =
      (List.range (RingGraph.num_edges n)).map (fun v => (v, (v + 1) % n)) ∧
    (RingGraph.edges n).length = RingGraph.num_edges n ∧
    (RingGraph.edges n).Nodup := by
  have hrange : RingGraph.edges n =
      (List.range (RingGraph.num_edges n)).map (fun v => (v, (v + 1) % n)) := by
    unfold RingGraph.edges RingGraph.num_edges
    refine List.map_congr_left ?_
    intro v hv
    have hvn : v < n := by
      rcases List.mem_range.mp hv with h
      split at h
      · omega
      · exact h
    exact RingGraph.incDeref_zero hvn h2
  refine ⟨rfl, hrange, ?_, ?_⟩
  · rw [hrange]; simp
  · rw [hrange]
    refine List.Nodup.map_on ?_ (List.nodup_range _)
    intro x hx y hy hxy
    exact congrArg Prod.fst hxy

/-- Witness for `ring_edges_enumeration` at `n = 5`. -/
theorem ring_edges_enumeration_witness :
    1 ≤ 5 ∧ 5 < RingGraph.size_t_mod ∧
    (RingGraph.num_edges 5 = (if 5 = 2 then 1 else 5) ∧
     RingGraph.edges 5 =
       (List.range (RingGraph.num_edges 5)).map (fun v => (v, (v + 1) % 5)) ∧
     (RingGraph.edges 5).length = RingGraph.num_edges 5 ∧
     (RingGraph.edges 5).Nodup) :=
  ⟨by decide, by decide, ring_edges_enumeration 5 (by decide) (by decide)⟩

/-- Claim C8 (counterexample).  On the ring graph with `n = 2^63 + 2`, the
genuine ring edge `(2^63, 2^63 + 1)` (the first out-edge of vertex `2^63`)
has the `size_t` endpoint sum `2^64 + 1`, which wraps to `1`; the property
map therefore returns `0.5`, not the exact endpoint average
`(2^64 + 1) / 2` the claim asserts for every edge descriptor. -/
theorem ring_edge_weight_counterexample :
    ((2 ^ 63, 2 ^ 63 + 1) ∈ RingGraph.out_edges (2 ^ 63 + 2) (2 ^ 63)) ∧
    RingGraph.getEdgeWeight (2 ^ 63 + 2) (2 ^ 63, 2 ^ 63 + 1) = 1 / 2 ∧
    ((RingGraph.src (2 ^ 63, 2 ^ 63 + 1) : Rat) +
        (RingGraph.tgt (2 ^ 63, 2 ^ 63 + 1) : Rat)) / 2 = (2 ^ 64 + 1) / 2 ∧
    RingGraph.getEdgeWeight (2 ^ 63 + 2) (2 ^ 63, 2 ^ 63 + 1) ≠
      ((RingGraph.src (2 ^ 63, 2 ^ 63 + 1) : Rat) +
        (RingGraph.tgt (2 ^ 63, 2 ^ 63 + 1) : Rat)) / 2 := by
  have hmem : (2 ^ 63, 2 ^ 63 + 1) ∈ RingGraph.out_edges (2 ^ 63 + 2) (2 ^ 63) := by
    decide
  have hval : RingGraph.getEdgeWeight (2 ^ 63 + 2) (2 ^ 63, 2 ^ 63 + 1) = 1 / 2 := by
    rw [RingGraph.getEdgeWeight, RingGraph.edge_weight]
    norm_num [RingGraph.size_t_mod, RingGraph.roundDouble]
  have hexact : ((RingGraph.src (2 ^ 63, 2 ^ 63 + 1) : Rat) +
      (RingGraph.tgt (2 ^ 63, 2 ^ 63 + 1) : Rat)) / 2 = (2 ^ 64 + 1) / 2 := by
    rw [RingGraph.src, RingGraph.tgt]
    norm_num
  refine ⟨hmem, hval, hexact, ?_⟩
  rw [hval, hexact]
  norm_num

/-- Claim C8 (amended).  Reading the edge-weight property map is a pure
recomputation of `(source(e) + target(e)) / 2.0` on each access, nothing
cached; the value equals the exact endpoint average
`(source(e) + target(e)) / 2` whenever the endpoint sum stays below `2^53`
(no `size_t` wrap, no double rounding) — in particular for every out-edge of
every ring graph of size `n ≤ 2^52` — and for `n = 5` the five edges
`(0,1), (1,2), (2,3), (3,4), (4,0)` carry the exact dyadic rationals
`0.5, 1.5, 2.5, 3.5, 2.0`.  For larger sums the `size_t` addition wraps and
the conversion to double rounds, so the exact-average reading fails there. -/
theorem ring_edge_weight_amended :
    (∀ (n : Nat) (e : Nat × Nat), e.1 + e.2 < 2 ^ 53 →
        RingGraph.getEdgeWeight n e =
          ((RingGraph.src e : Rat) + (RingGraph.tgt e : Rat)) / 2) ∧
    (∀ (n u : Nat), n ≤ 2 ^ 52 → u < n →
        ∀ e ∈ RingGraph.out_edges n u,
          RingGraph.getEdgeWeight n e =
            ((RingGraph.src e : Rat) + (RingGraph.tgt e : Rat)) / 2) ∧
    (RingGraph.edges 5).map (RingGraph.getEdgeWeight 5) =
      [1/2, 3/2, 5/2, 7/2, 2] := by
  have hgen : ∀ (n : Nat) (e : Nat × Nat), e.1 + e.2 < 2 ^ 53 →
      RingGraph.getEdgeWeight n e =
        ((RingGraph.src e : Rat) + (RingGraph.tgt e : Rat)) / 2 := by
    intro n e h
    rw [RingGraph.getEdgeWeight, RingGraph.edge_weight,
      Nat.mod_eq_of_lt (show e.1 + e.2 < RingGraph.size_t_mod by
        have : (2 : Nat) ^ 53 < 2 ^ 64 := by norm_num
        rw [RingGraph.size_t_mod]
        omega),
      RingGraph.roundDouble_small h, RingGraph.src, RingGraph.tgt]
    push_cast
    ring
  refine ⟨hgen, ?_, ?_⟩
  · intro n u hn hu e he
    obtain ⟨h1, h2⟩ := RingGraph.out_edges_src_tgt hu he
    refine hgen n e ?_
    have h52 : (2 : Nat) ^ 52 + 2 ^ 52 = 2 ^ 53 := by norm_num
    omega
  · have h5 : RingGraph.edges 5 = [(0, 1), (1, 2), (2, 3), (3, 4), (4, 0)] := by
      decide
    rw [h5]
    simp only [List.map_cons, List.map_nil]
    rw [hgen 5 (0, 1) (by norm_num), hgen 5 (1, 2) (by norm_num),
      hgen 5 (2, 3) (by norm_num), hgen 5 (3, 4) (by norm_num),
      hgen 5 (4, 0) (by norm_num)]
    norm_num [RingGraph.src, RingGraph.tgt]

/-- Claim C10.  Every edge descriptor yielded by `out_edges u` on a ring graph
of size `n ≥ 1` has source component exactly `u` and a valid target in
`[0, n)`; and (for `n ≥ 3`) the wraparound connection is denoted `(0, n-1)` by
`out_edges 0` but `(n-1, 0)` by `edges()`, two descriptors that compare
unequal as pairs. -/
theorem ring_descriptor_orientation (n : Nat) (h1 : 1 ≤ n)
    (h2 : n < RingGraph.size_t_mod) :
    (∀ u, u < n → ∀ e ∈ RingGraph.out_edges n u,
        RingGraph.src e = u ∧ RingGraph.tgt e < n) ∧
    (3 ≤ n →
      ((0, n - 1) ∈ RingGraph.out_edges n 0 ∧
       (n - 1, 0) ∈ RingGraph.edges n ∧
       ((0, n - 1) : Nat × Nat) ≠ ((n - 1, 0) : Nat × Nat))) := by
  constructor
  · intro u hu e he
    rcases List.mem_map.mp he with ⟨p, hp, rfl⟩
    unfold RingGraph.incDeref RingGraph.src RingGraph.tgt
    split
    · exact ⟨rfl, by omega⟩
    · exact ⟨rfl, Nat.mod_lt _ (by omega)⟩
  · intro h3
    have hend : RingGraph.incEnd n = 2 := by
      unfold RingGraph.incEnd
      simp [show 2 < n by omega]
    refine ⟨?_, ?_, ?_⟩
    · rw [RingGraph.out_edges, hend]
      have : (1 : Nat) ∈ List.range 2 := by decide
      have h := List.mem_map_of_mem (RingGraph.incDeref n 0) this
      rwa [RingGraph.incDeref_zero_one] at h
    · unfold RingGraph.edges
      have hne2 : n ≠ 2 := by omega
      simp only [hne2, if_false]
      refine List.mem_map.mpr ⟨n - 1, List.mem_range.mpr (by omega), ?_⟩
      rw [RingGraph.incDeref_zero (by omega) h2,
        show (n - 1 + 1) % n = 0 by
          rw [show n - 1 + 1 = n by omega]; exact Nat.mod_self n]
    · intro h
      have h0 := congrArg Prod.fst h
      simp at h0
      omega

/-- Witness for `ring_descriptor_orientation` at `n = 5`. -/
theorem ring_descriptor_orientation_witness :
    1 ≤ 5 ∧ 5 < RingGraph.size_t_mod ∧
    ((∀ u, u < 5 → ∀ e ∈ RingGraph.out_edges 5 u,
        RingGraph.src e = u ∧ RingGraph.tgt e < 5) ∧
     (3 ≤ 5 →
       ((0, 5 - 1) ∈ RingGraph.out_edges 5 0 ∧
        (5 - 1, 0) ∈ RingGraph.edges 5 ∧
        ((0, 5 - 1) : Nat × Nat) ≠ ((5 - 1, 0) : Nat × Nat)))) :=
  ⟨by decide, by decide, ring_descriptor_orientation 5 (by decide) (by decide)⟩

/-- Claim C6.  On the ring graph with `n = 5`, Dijkstra from vertex 0 with the
computed edge weights terminates with distances
`[0, 0.5, 2.0, 4.5, 2.0]` and predecessors `[0, 0, 1, 2, 0]`. -/
theorem ring_dijkstra_run :
    (Dijkstra.dijkstra 5 (Dijkstra.ringAdjW 5) 0).dist =
      [some 0, some (1/2), some 2, some (9/2), some 2] ∧
    (Dijkstra.dijkstra 5 (Dijkstra.ringAdjW 5) 0).pred = [0, 0, 1, 2, 0] := by
  constructor <;>
  · norm_num [Dijkstra.dijkstra, Dijkstra.dloop, Dijkstra.dstep, Dijkstra.findMin,
      Dijkstra.better, Dijkstra.relaxEdge, Dijkstra.ringAdjW,
      RingGraph.out_edges, RingGraph.incDeref, RingGraph.incEnd, RingGraph.size_t_mod,
      RingGraph.tgt, RingGraph.getEdgeWeight, RingGraph.edge_weight,
      RingGraph.roundDouble, List.range_succ, List.foldl]

namespace FileDeps

lemma getD_set_self {t : List Nat} {v : Nat} {x : Nat} (h : v < t.length) :
    (t.set v x).getD v 0 = x := by
  simp [List.getD, List.getElem?_set_self', h]

lemma getD_set_ne {t : List Nat} {v w : Nat} {x : Nat} (h : w ≠ v) :
    (t.set v x).getD w 0 = t.getD w 0 := by
  simp [List.getD, List.getElem?_set_ne (Ne.symm h)]

lemma length_levelStep (t : List Nat) (v : Nat) :
    (levelStep t v).length = t.length := by
  unfold levelStep; split <;> simp

lemma levelStep_getD_ne {t : List Nat} {v w : Nat} (h : w ≠ v) :
    (levelStep t v).getD w 0 = t.getD w 0 := by
  unfold levelStep; split
  · exact getD_set_ne h
  · rfl

lemma length_foldl_levelStep (l : List Nat) (t : List Nat) :
    (l.foldl levelStep t).length = t.length := by
  induction l generalizing t with
  | nil => rfl
  | cons w l ih => simpa [List.foldl_cons, length_levelStep] using ih (levelStep t w)

lemma foldl_levelStep_not_mem {l : List Nat} {v : Nat} (h : v ∉ l) (t : List Nat) :
    (l.foldl levelStep t).getD v 0 = t.getD v 0 := by
  induction l generalizing t with
  | nil => rfl
  | cons w l ih =>
    have hwv : v ≠ w := fun hv => h (hv ▸ List.mem_cons_self w l)
    rw [List.foldl_cons, ih (fun hv => h (List.mem_cons_of_mem w hv)),
      levelStep_getD_ne hwv]

lemma foldl_levelStep_no_in_edges {v : Nat} (h : in_degree v = 0) (l : List Nat)
    (t : List Nat) : (l.foldl levelStep t).getD v 0 = t.getD v 0 := by
  induction l generalizing t with
  | nil => rfl
  | cons w l ih =>
    rw [List.foldl_cons, ih]
    by_cases hwv : v = w
    · subst hwv; unfold levelStep; rw [h]; simp
    · exact levelStep_getD_ne hwv

lemma le_foldl_max {α : Type} (g : α → Nat) (l : List α) (acc : Nat) :
    acc ≤ l.foldl (fun m e => max (g e) m) acc := by
  induction l generalizing acc with
  | nil => exact Nat.le_refl acc
  | cons a l ih => exact Nat.le_trans (Nat.le_max_right _ _) (ih _)

lemma mem_le_foldl_max {α : Type} (g : α → Nat) {l : List α} {x : α} (hx : x ∈ l)
    (acc : Nat) : g x ≤ l.foldl (fun m e => max (g e) m) acc := by
  induction l generalizing acc with
  | nil => cases hx
  | cons a l ih =>
    rcases List.mem_cons.mp hx with h | h
    · subst h
      exact Nat.le_trans (Nat.le_max_left _ _) (le_foldl_max g l _)
    · exact ih h _

lemma usedBy_bounds : ∀ e ∈ usedBy, e.1 < numV ∧ e.2 < numV := by decide

lemma getD_replicate_zero (n v : Nat) : (List.replicate n (0 : Nat)).getD v 0 = 0 := by
  rcases Nat.lt_or_ge v n with h | h
  · simp [List.getD, List.get?_eq_getElem?, List.getElem?_replicate, h]
  · simp [List.getD, List.get?_eq_getElem?,
      List.getElem?_eq_none (by simpa using h : (List.replicate n (0 : Nat)).length ≤ v)]

/-- Final value of the slot of a vertex with in-edges: one plus the maximum of
the final values of its in-edge sources (indexing every slot by the vertex
itself, per the corrected loop). -/
lemma levelSchedule_eq {order : List Nat} (h : ValidTopo order) {v : Nat}
    (hvm : v ∈ order) (hd : 0 < in_degree v) :
    (levelSchedule order).getD v 0 =
      (in_edges v).foldl
        (fun m e => max ((levelSchedule order).getD e.1 0) m) 0 + 1 := by
  obtain ⟨l₁, l₂, horder⟩ := List.append_of_mem hvm
  obtain ⟨hn, hall, hub, hedge⟩ := h
  have hnodup := hn
  rw [horder] at hnodup
  rw [List.nodup_append] at hnodup
  obtain ⟨hn1, hn2, hdisj⟩ := hnodup
  have hvl1 : v ∉ l₁ := fun hv => hdisj hv (List.mem_cons_self v l₂)
  have hvl2 : v ∉ l₂ := (List.nodup_cons.mp hn2).1
  have hvN : v < numV := hub v hvm
  -- the state just before `v` is processed
  set A : List Nat := l₁.foldl levelStep (List.replicate numV 0) with hA
  have hAlen : A.length = numV := by
    rw [hA, length_foldl_levelStep]; simp [numV]
  have hfold : levelSchedule order = l₂.foldl levelStep (levelStep A v) := by
    rw [levelSchedule, horder, List.foldl_append, List.foldl_cons]
  -- sources of in-edges of `v` sit in `l₁` and are untouched afterwards
  have hsrc : ∀ e ∈ in_edges v, (levelSchedule order).getD e.1 0 = A.getD e.1 0 := by
    intro e he
    have heu : e ∈ usedBy := List.mem_of_mem_filter he
    have hev : e.2 = v := by
      have := List.of_mem_filter he
      simpa using this
    have huN : e.1 < numV := (usedBy_bounds e heu).1
    have hum : e.1 ∈ order := hall e.1 huN
    have hidx : order.indexOf e.1 < order.indexOf e.2 := hedge e heu
    rw [hev] at hidx
    have hvidx : order.indexOf v = l₁.length := by
      rw [horder, List.indexOf_append_of_not_mem hvl1, List.indexOf_cons_self]
      omega
    have huv : e.1 ≠ v := by
      intro hq; rw [hq] at hidx; omega
    have hul1 : e.1 ∈ l₁ := by
      by_contra hnot
      have : e.1 ∈ v :: l₂ := by
        rw [horder] at hum
        rcases List.mem_append.mp hum with h' | h'
        · exact absurd h' hnot
        · exact h'
      have hil2 : e.1 ∈ l₂ := by
        rcases List.mem_cons.mp this with h' | h'
        · exact absurd h' huv
        · exact h'
      have : order.indexOf e.1 = l₁.length + (l₂.indexOf e.1 + 1) := by
        rw [horder, List.indexOf_append_of_not_mem hnot,
          List.indexOf_cons_ne _ (Ne.symm huv)]
      omega
    have hul2 : e.1 ∉ l₂ := by
      intro hq
      exact hdisj hul1 (List.mem_cons_of_mem v hq)
    rw [hfold, foldl_levelStep_not_mem hul2, levelStep_getD_ne huv]
  have hvset : (levelSchedule order).getD v 0 =
      (in_edges v).foldl (fun m e => max (A.getD e.1 0) m) 0 + 1 := by
    rw [hfold, foldl_levelStep_not_mem hvl2]
    unfold levelStep
    rw [if_pos hd]
    exact getD_set_self (by omega)
  rw [hvset]
  congr 1
  exact (List.foldl_ext _ _ 0 (fun m e he => by rw [hsrc e he])).symm

end FileDeps

/-- Claim C2 (for the intended, vertex-indexed loop; the code as written is
recorded as a bug).  For every valid topological order of the
`file_dependencies` graph, the computed values satisfy: a vertex without
in-edges keeps value 0; a vertex with in-edges gets one plus the running
maximum of the values of its in-edge sources; and consequently every
dependency edge `(u, v)` satisfies `time[v] > time[u]`. -/
theorem file_dependencies_level_schedule (order : List Nat)
    (h : FileDeps.ValidTopo order) :
    (∀ v, v < FileDeps.numV → FileDeps.in_degree v = 0 →
        (FileDeps.levelSchedule order).getD v 0 = 0) ∧
    (∀ v, v < FileDeps.numV → 0 < FileDeps.in_degree v →
        (FileDeps.levelSchedule order).getD v 0 =
          (FileDeps.in_edges v).foldl
            (fun m e => max ((FileDeps.levelSchedule order).getD e.1 0) m) 0 + 1) ∧
    (∀ e ∈ FileDeps.usedBy,
        (FileDeps.levelSchedule order).getD e.1 0 <
          (FileDeps.levelSchedule order).getD e.2 0) := by
  refine ⟨?_, ?_, ?_⟩
  · intro v hv hdeg
    rw [FileDeps.levelSchedule, FileDeps.foldl_levelStep_no_in_edges hdeg,
      FileDeps.getD_replicate_zero]
  · intro v hv hdeg
    exact FileDeps.levelSchedule_eq h (h.2.1 v hv) hdeg
  · intro e he
    have he2 : e ∈ FileDeps.in_edges e.2 := by
      rw [FileDeps.in_edges, List.mem_filter]
      exact ⟨he, by simp⟩
    have hdeg : 0 < FileDeps.in_degree e.2 := by
      rw [FileDeps.in_degree]
      exact List.length_pos.mpr (fun hq => by simp [hq] at he2)
    have hbounds := FileDeps.usedBy_bounds e he
    have heq := FileDeps.levelSchedule_eq h (h.2.1 e.2 hbounds.2) hdeg
    rw [heq]
    have := FileDeps.mem_le_foldl_max
      (fun e' => (FileDeps.levelSchedule order).getD e'.1 0) he2 0
    omega

/-- Witness for `file_dependencies_level_schedule`: the identity order
`0, 1, ..., 14` is a valid topological order of the `used_by` graph. -/
theorem file_dependencies_level_schedule_witness :
    FileDeps.ValidTopo (List.range 15) ∧
    ((∀ v, v < FileDeps.numV → FileDeps.in_degree v = 0 →
        (FileDeps.levelSchedule (List.range 15)).getD v 0 = 0) ∧
     (∀ v, v < FileDeps.numV → 0 < FileDeps.in_degree v →
        (FileDeps.levelSchedule (List.range 15)).getD v 0 =
          (FileDeps.in_edges v).foldl
            (fun m e => max ((FileDeps.levelSchedule (List.range 15)).getD e.1 0) m)
            0 + 1) ∧
     (∀ e ∈ FileDeps.usedBy,
        (FileDeps.levelSchedule (List.range 15)).getD e.1 0 <
          (FileDeps.levelSchedule (List.range 15)).getD e.2 0)) :=
  ⟨by decide, file_dependencies_level_schedule (List.range 15) (by decide)⟩

namespace KevinBacon

lemma addActor_edges (st : BGraph) (nm : String) :
    (addActor st nm).1.edges = st.edges := by
  unfold addActor
  rcases h : st.actors.find? (fun p => p.1 == nm) with _ | p <;> simp [h]

lemma addActor_found_mem {st : BGraph} {nm : String} (hInv : Inv st)
    {p : String × Nat} (h : st.actors.find? (fun q => q.1 == nm) = some p) :
    nm ∈ st.names := by
  have hp := List.find?_some h
  have hmem := List.mem_of_find?_eq_some h
  have : p.1 = nm := by simpa using hp
  exact (hInv.2.2 nm).mpr ⟨p, hmem, this⟩

lemma addActor_none_not_mem {st : BGraph} {nm : String} (hInv : Inv st)
    (h : st.actors.find? (fun q => q.1 == nm) = none) :
    nm ∉ st.names := by
  intro hmem
  obtain ⟨p, hp, hp1⟩ := (hInv.2.2 nm).mp hmem
  have := List.find?_eq_none.mp h p hp
  simp [hp1] at this

lemma addActor_inv {st : BGraph} (nm : String) (hInv : Inv st) :
    Inv (addActor st nm).1 ∧
    (∀ x, x ∈ (addActor st nm).1.names ↔ (x ∈ st.names ∨ x = nm)) := by
  unfold addActor
  rcases h : st.actors.find? (fun p => p.1 == nm) with _ | p
  all_goals simp only [h]
  · have hnm : nm ∉ st.names := addActor_none_not_mem hInv h
    obtain ⟨hnd, hpt, hcov⟩ := hInv
    refine ⟨⟨?_, ?_, ?_⟩, ?_⟩
    · rw [List.nodup_append]
      refine ⟨hnd, List.nodup_singleton nm, ?_⟩
      intro x hx hx1
      rcases List.mem_singleton.mp hx1 with rfl
      exact hnm hx
    · intro p hp
      rcases List.mem_append.mp hp with hp' | hp'
      · have hold := hpt p hp'
        have hlt : p.2 < st.names.length := by
          by_contra hge
          rw [List.get?_eq_none.mpr (by omega)] at hold
          cases hold
        rw [List.get?_append hlt]
        exact hold
      · rcases List.mem_singleton.mp hp' with rfl
        exact List.get?_concat_length _ _
    · intro x
      constructor
      · intro hx
        rcases List.mem_append.mp hx with hx' | hx'
        · obtain ⟨p, hp, hp1⟩ := (hcov x).mp hx'
          exact ⟨p, List.mem_append_left _ hp, hp1⟩
        · rcases List.mem_singleton.mp hx' with rfl
          exact ⟨(x, st.names.length), List.mem_append_right _ (by simp), rfl⟩
      · rintro ⟨p, hp, rfl⟩
        rcases List.mem_append.mp hp with hp' | hp'
        · exact List.mem_append_left _ ((hcov p.1).mpr ⟨p, hp', rfl⟩)
        · rcases List.mem_singleton.mp hp' with hq
          rw [hq]
          exact List.mem_append_right _ (by simp)
    · intro x
      simp
  · refine ⟨hInv, ?_⟩
    have hnm : nm ∈ st.names := addActor_found_mem hInv h
    intro x
    constructor
    · exact fun hx => Or.inl hx
    · rintro (hx | rfl)
      · exact hx
      · exact hnm

lemma processRecord_inv {st : BGraph} (r : String × String × String)
    (hInv : Inv st) :
    Inv (processRecord st r) ∧
    (∀ x, x ∈ (processRecord st r).names ↔
      (x ∈ st.names ∨ x = r.1 ∨ x = r.2.2)) ∧
    (processRecord st r).edges.length = st.edges.length + 1 := by
  obtain ⟨hI1, hM1⟩ := addActor_inv r.1 hInv
  obtain ⟨hI2, hM2⟩ := addActor_inv r.2.2 hI1
  unfold processRecord
  refine ⟨⟨hI2.1, hI2.2.1, hI2.2.2⟩, ?_, ?_⟩
  · intro x
    simp only
    rw [hM2 x, hM1 x]
    tauto
  · simp only [List.length_append, List.length_singleton]
    rw [addActor_edges, addActor_edges]

lemma buildGraph_fold (rs : List (String × String × String)) :
    ∀ st, Inv st →
      Inv (rs.foldl processRecord st) ∧
      (∀ x, x ∈ (rs.foldl processRecord st).names ↔
        (x ∈ st.names ∨ ∃ r ∈ rs, x = r.1 ∨ x = r.2.2)) ∧
      (rs.foldl processRecord st).edges.length = st.edges.length + rs.length := by
  induction rs with
  | nil => intro st h; refine ⟨h, fun x => by simp, by simp⟩
  | cons r rs ih =>
    intro st h
    obtain ⟨hI, hM, hE⟩ := processRecord_inv r h
    obtain ⟨hI', hM', hE'⟩ := ih (processRecord st r) hI
    refine ⟨hI', ?_, ?_⟩
    · intro x
      rw [List.foldl_cons, hM' x, hM x]
      constructor
      · rintro ((hx | hx | hx) | ⟨q, hq, hx⟩)
        · exact Or.inl hx
        · exact Or.inr ⟨r, List.mem_cons_self r rs, Or.inl hx⟩
        · exact Or.inr ⟨r, List.mem_cons_self r rs, Or.inr hx⟩
        · exact Or.inr ⟨q, List.mem_cons_of_mem r hq, hx⟩
      · rintro (hx | ⟨q, hq, hx⟩)
        · exact Or.inl (Or.inl hx)
        · rcases List.mem_cons.mp hq with rfl | hq'
          · exact Or.inl (Or.inr hx)
          · exact Or.inr ⟨q, hq', hx⟩
    · rw [List.foldl_cons, hE', hE]
      simp only [List.length_cons]
      omega

end KevinBacon

/-- Claim C9 (counterexample).  Two records in which the same pair of actors
co-appears in two different movies produce two vertices but two identical
edges `(0, 1)`: the built graph does contain two edges connecting the same
pair of vertices. -/
theorem kevin_bacon_parallel_edges :
    (KevinBacon.buildGraph
        [("A", "M1", "B"), ("A", "M2", "B")]).edges = [(0, 1), (0, 1)] ∧
    (KevinBacon.buildGraph
        [("A", "M1", "B"), ("A", "M2", "B")]).names = ["A", "B"] := by
  constructor <;> rfl

/-- Claim C9 (amended).  For every record sequence, the builder creates
exactly one vertex per unique actor name — the name list is duplicate-free,
contains exactly the names occurring in the records, and every lookup-map
entry points at the vertex carrying its name — while `add_edge` appends
exactly one edge per record, so a pair co-appearing in several records yields
that many parallel edges. -/
theorem kevin_bacon_builder (rs : List (String × String × String)) :
    (KevinBacon.buildGraph rs).names.Nodup ∧
    (∀ p ∈ (KevinBacon.buildGraph rs).actors,
        (KevinBacon.buildGraph rs).names.get? p.2 = some p.1) ∧
    (∀ x, x ∈ (KevinBacon.buildGraph rs).names ↔ ∃ r ∈ rs, x = r.1 ∨ x = r.2.2) ∧
    (KevinBacon.buildGraph rs).edges.length = rs.length := by
  have hInv0 : KevinBacon.Inv ⟨[], [], []⟩ := by
    refine ⟨List.nodup_nil, ?_, ?_⟩
    · intro p hp; cases hp
    · intro nm
      constructor
      · intro h; cases h
      · rintro ⟨p, hp, _⟩; cases hp
  obtain ⟨hI, hM, hE⟩ := KevinBacon.buildGraph_fold rs ⟨[], [], []⟩ hInv0
  refine ⟨hI.1, hI.2.1, ?_, ?_⟩
  · intro x
    rw [KevinBacon.buildGraph, hM x]
    simp
  · rw [KevinBacon.buildGraph, hE]
    simp

namespace Hawick

lemma flatMap_eq_nil_of {α β : Type} (f : α → List β) :
    ∀ l : List α, (∀ x ∈ l, f x = []) → l.flatMap f = [] := by
  intro l
  induction l with
  | nil => intro _; rfl
  | cons a l ih =>
    intro h
    rw [List.flatMap_cons, h a (List.mem_cons_self a l), List.nil_append]
    exact ih (fun x hx => h x (List.mem_cons_of_mem a hx))

lemma range_succ_reverse (m : Nat) :
    (List.range (m + 1)).reverse = m :: (List.range m).reverse := by
  rw [List.range_succ, List.reverse_append]
  rfl

/-- Walking the cycle graph from start 0: once the path holds `0, ..., u` with
`u = k - d`, the search returns exactly the one circuit `0, 1, ..., k-1`. -/
lemma circuitsFrom_cycle_zero (k : Nat) (hk : 2 ≤ k) :
    ∀ d fuel, 1 ≤ d → d ≤ k - 1 → d ≤ fuel →
      circuitsFrom (cycleAdj k) 0 fuel (k - d) ((List.range (k - d + 1)).reverse) =
        [List.range k] := by
  intro d
  induction d with
  | zero => intro fuel h1 _ _; omega
  | succ d ih =>
    intro fuel h1 h2 h3
    rcases fuel with _ | f
    · omega
    by_cases hd : d = 0
    · subst hd
      have hu : k - 1 + 1 = k := by omega
      simp only [circuitsFrom, cycleAdj, hu, Nat.mod_self, List.flatMap_cons,
        List.flatMap_nil, List.append_nil, if_true, eq_self_iff_true,
        List.reverse_reverse]
    · have hd1 : 1 ≤ d := by omega
      have hv : (k - (d + 1) + 1) % k = k - d := by
        rw [show k - (d + 1) + 1 = k - d by omega]
        exact Nat.mod_eq_of_lt (by omega)
      have hvne : ¬ (k - d = 0) := by omega
      have hnotmem : k - d ∉ (List.range (k - (d + 1) + 1)).reverse := by
        rw [List.mem_reverse, List.mem_range]
        omega
      have hpath : (k - d) :: (List.range (k - (d + 1) + 1)).reverse =
          (List.range (k - d + 1)).reverse := by
        rw [show k - (d + 1) + 1 = k - d from by omega, range_succ_reverse (k - d)]
      simp only [circuitsFrom, cycleAdj, hv, List.flatMap_cons, List.flatMap_nil,
        List.append_nil, if_neg hvne, if_pos (And.intro (Nat.zero_le _) hnotmem)]
      rw [hpath]
      exact ih f hd1 (by omega) (by omega)

/-- Starting anywhere but at vertex 0, the exploration restricted to vertices
`≥ s` can never close a circuit on the cycle graph: the only way back to `s`
passes through vertex 0, which is below every such start. -/
lemma circuitsFrom_cycle_pos (k s : Nat) (hs1 : 1 ≤ s) (hsk : s < k) :
    ∀ fuel u path, s ≤ u → u < k →
      circuitsFrom (cycleAdj k) s fuel u path = [] := by
  intro fuel
  induction fuel with
  | zero => intro u path _ _; rfl
  | succ f ih =>
    intro u path hsu huk
    by_cases hu : u = k - 1
    · subst hu
      have hv : (k - 1 + 1) % k = 0 := by
        rw [show k - 1 + 1 = k by omega]
        exact Nat.mod_self k
      have h1 : ¬ ((0 : Nat) = s) := by omega
      have h2 : ¬ (s ≤ 0 ∧ (0 : Nat) ∉ path) := by
        intro h
        omega
      simp only [circuitsFrom, cycleAdj, hv, List.flatMap_cons, List.flatMap_nil,
        List.append_nil, if_neg h1, if_neg h2]
    · have hv : (u + 1) % k = u + 1 := Nat.mod_eq_of_lt (by omega)
      have h1 : ¬ (u + 1 = s) := by omega
      simp only [circuitsFrom, cycleAdj, hv, List.flatMap_cons, List.flatMap_nil,
        List.append_nil, if_neg h1]
      split
      · exact ih (u + 1) ((u + 1) :: path) (by omega) (by omega)
      · rfl

lemma foldl_min_zero : ∀ l : List Nat, l.foldl min 0 = 0 := by
  intro l
  induction l with
  | nil => rfl
  | cons a l ih => rw [List.foldl_cons, Nat.zero_min]; exact ih

lemma minVert_range {k : Nat} (hk : 1 ≤ k) : minVert (List.range k) = 0 := by
  obtain ⟨m, rfl⟩ : ∃ m, k = m + 1 := ⟨k - 1, by omega⟩
  rw [minVert, List.range_succ_eq_map]
  simpa using foldl_min_zero _

lemma canonical_range {k : Nat} (hk : 1 ≤ k) :
    canonical (List.range k) = List.range k := by
  have hlen : (List.range k).length = k := List.length_range k
  have hhead : (List.range k).headD 0 = 0 := by
    obtain ⟨m, rfl⟩ : ∃ m, k = m + 1 := ⟨k - 1, by omega⟩
    rw [List.range_succ_eq_map]
    rfl
  have hrot : rotations (List.range k) =
      ((List.range k).drop 0 ++ (List.range k).take 0) ::
        ((List.range (k - 1)).map Nat.succ).map
          (fun i => (List.range k).drop i ++ (List.range k).take i) := by
    rw [rotations, hlen, show k = (k - 1) + 1 from by omega]
    rw [List.range_succ_eq_map, List.map_cons,
      show (k - 1) + 1 = k from by omega]
  have hhead2 : (List.range k).drop 0 ++ (List.range k).take 0 = List.range k := by
    simp
  rw [canonical, hrot, hhead2, List.filter_cons_of_pos]
  · rfl
  · rw [hhead, minVert_range hk]
    rfl

/-- The full run of all-circuits mode on the cycle graph: the single circuit
is reported exactly once, from start vertex 0. -/
lemma hawickCircuits_cycle {k : Nat} (hk : 2 ≤ k) :
    hawickCircuits k (cycleAdj k) = [List.range k] := by
  obtain ⟨m, rfl⟩ : ∃ m, k = m + 1 := ⟨k - 1, by omega⟩
  rw [hawickCircuits]
  conv_lhs => rw [List.range_succ_eq_map]
  rw [List.flatMap_cons]
  have htail :
      ((List.range m).map Nat.succ).flatMap
        (fun s => circuitsFrom (cycleAdj (m + 1)) s (m + 1) s [s]) = [] := by
    refine flatMap_eq_nil_of _ _ ?_
    intro x hx
    rcases List.mem_map.mp hx with ⟨y, hy, rfl⟩
    have hyk : y.succ < m + 1 := by
      have := List.mem_range.mp hy
      omega
    exact circuitsFrom_cycle_pos (m + 1) y.succ (by omega) hyk (m + 1) y.succ _
      (Nat.le_refl _) hyk
  rw [htail, List.append_nil]
  have h1mod : 1 % (m + 1) = 1 := Nat.mod_eq_of_lt (by omega)
  have hne : ¬ ((1 : Nat) = 0) := by omega
  have hmem : (1 : Nat) ∉ ([0] : List Nat) := by simp
  simp only [circuitsFrom, cycleAdj, h1mod, List.flatMap_cons, List.flatMap_nil,
    List.append_nil, if_neg hne, if_pos (And.intro (Nat.zero_le _) hmem)]
  have h1 : m + 1 - m = 1 := by omega
  have hmain := circuitsFrom_cycle_zero (m + 1) hk m m (by omega) (by omega)
    (Nat.le_refl m)
  rw [h1] at hmain
  exact hmain

end Hawick

/-- Claim C3 (counterexample).  The directed 3-cycle `0 → 1 → 2 → 0` contains
exactly one simple cycle, of length `k = 3`, yet the all-circuits mode
reports exactly 1 circuit sequence — not `k = 3` rotations — and the
unique-circuits mode also reports exactly 1. -/
theorem hawick_single_cycle_counterexample :
    Hawick.hawickCircuits 3 (Hawick.cycleAdj 3) = [[0, 1, 2]] ∧
    (Hawick.hawickCircuits 3 (Hawick.cycleAdj 3)).length = 1 ∧
    (Hawick.hawickCircuits 3 (Hawick.cycleAdj 3)).length ≠ 3 ∧
    Hawick.hawickUniqueCircuits 3 (Hawick.cycleAdj 3) = [[0, 1, 2]] := by
  refine ⟨by decide, by decide, by decide, by decide⟩

/-- Claim C3 (amended).  On the directed cycle graph of length `k ≥ 2` — a
graph containing exactly one simple cycle, of length `k` — the all-circuits
mode reports exactly one circuit sequence (the rotation starting at the
smallest vertex, `0, 1, ..., k-1`), since exploration from start `s` is
restricted to vertices `≥ s`; rotations are not reported separately.  The
unique-circuits mode reports exactly the same single representative. -/
theorem hawick_single_cycle_amended (k : Nat) (hk : 2 ≤ k) :
    Hawick.hawickCircuits k (Hawick.cycleAdj k) = [List.range k] ∧
    Hawick.hawickUniqueCircuits k (Hawick.cycleAdj k) = [List.range k] ∧
    (Hawick.hawickCircuits k (Hawick.cycleAdj k)).length = 1 ∧
    (Hawick.hawickUniqueCircuits k (Hawick.cycleAdj k)).length = 1 := by
  have hall := Hawick.hawickCircuits_cycle hk
  have huniq : Hawick.hawickUniqueCircuits k (Hawick.cycleAdj k) = [List.range k] := by
    rw [Hawick.hawickUniqueCircuits, hall, List.map_cons, List.map_nil,
      Hawick.canonical_range (by omega), List.dedup_cons_of_not_mem (by simp),
      List.dedup_nil]
  exact ⟨hall, huniq, by rw [hall]; rfl, by rw [huniq]; rfl⟩

/-- Witness for `hawick_single_cycle_amended` at `k = 4`. -/
theorem hawick_single_cycle_amended_witness :
    2 ≤ 4 ∧
    (Hawick.hawickCircuits 4 (Hawick.cycleAdj 4) = [List.range 4] ∧
     Hawick.hawickUniqueCircuits 4 (Hawick.cycleAdj 4) = [List.range 4] ∧
     (Hawick.hawickCircuits 4 (Hawick.cycleAdj 4)).length = 1 ∧
     (Hawick.hawickUniqueCircuits 4 (Hawick.cycleAdj 4)).length = 1) :=
  ⟨by decide, hawick_single_cycle_amended 4 (by decide)⟩

namespace BFS

lemma reaches_zero {adj : Nat → List Nat} {s v : Nat}
    (h : Reaches adj s v 0) : v = s := by
  cases h
  rfl

lemma reaches_succ {adj : Nat → List Nat} {s v k : Nat}
    (h : Reaches adj s v (k + 1)) : ∃ u, Reaches adj s u k ∧ v ∈ adj u := by
  cases h with
  | step h1 h2 => exact ⟨_, h1, h2⟩

lemma shortest_source (adj : Nat → List Nat) (s : Nat) :
    IsShortest adj s s 0 :=
  ⟨Reaches.refl, fun j _ => Nat.zero_le j⟩

lemma shortest_unique {adj : Nat → List Nat} {s v j j' : Nat}
    (h1 : IsShortest adj s v j) (h2 : IsShortest adj s v j') : j = j' :=
  Nat.le_antisymm (h1.2 j' h2.1) (h2.2 j h1.1)

lemma shortest_zero {adj : Nat → List Nat} {s v : Nat}
    (h : IsShortest adj s v 0) : v = s := reaches_zero h.1

lemma reachable_shortest {adj : Nat → List Nat} {s v : Nat}
    (h : Reachable adj s v) : ∃ k, IsShortest adj s v k := by
  obtain ⟨k, hk⟩ := h
  refine ⟨sInf {j | Reaches adj s v j}, Nat.sInf_mem ⟨k, hk⟩, ?_⟩
  intro j hj
  exact Nat.sInf_le hj

lemma shortest_pred {adj : Nat → List Nat} {s v k : Nat}
    (h : IsShortest adj s v (k + 1)) :
    ∃ u, IsShortest adj s u k ∧ v ∈ adj u := by
  obtain ⟨u, hu, hadj⟩ := reaches_succ h.1
  refine ⟨u, ⟨hu, ?_⟩, hadj⟩
  intro j hj
  have := h.2 (j + 1) (Reaches.step hj hadj)
  omega

lemma reaches_lt {n : Nat} {adj : Nat → List Nat} {s : Nat} (hs : s < n)
    (hadj : ∀ u v, v ∈ adj u → v < n) {v k : Nat}
    (h : Reaches adj s v k) : v < n := by
  induction h with
  | refl => exact hs
  | step _ h2 _ => exact hadj _ _ h2

lemma shortest_chain {adj : Nat → List Nat} {s : Nat} :
    ∀ {k v}, IsShortest adj s v k →
      ∃ c : List Nat, c.length = k + 1 ∧ c.Nodup ∧
        ∀ x ∈ c, ∃ j, j ≤ k ∧ IsShortest adj s x j := by
  intro k
  induction k with
  | zero =>
    intro v h
    refine ⟨[v], rfl, List.nodup_singleton v, ?_⟩
    intro x hx
    rcases List.mem_singleton.mp hx with rfl
    exact ⟨0, Nat.le_refl 0, h⟩
  | succ k ih =>
    intro v h
    obtain ⟨u, hu, hadj⟩ := shortest_pred h
    obtain ⟨c, hlen, hnd, hmem⟩ := ih hu
    have hvc : v ∉ c := by
      intro hv
      obtain ⟨j, hj, hshort⟩ := hmem v hv
      have := shortest_unique h hshort
      omega
    refine ⟨c ++ [v], by simp [hlen], ?_, ?_⟩
    · rw [List.nodup_append]
      exact ⟨hnd, List.nodup_singleton v,
        fun x hx hx1 => by rcases List.mem_singleton.mp hx1 with rfl; exact hvc hx⟩
    · intro x hx
      rcases List.mem_append.mp hx with hx' | hx'
      · obtain ⟨j, hj, hshort⟩ := hmem x hx'
        exact ⟨j, by omega, hshort⟩
      · rcases List.mem_singleton.mp hx' with rfl
        exact ⟨k + 1, Nat.le_refl _, h⟩

lemma nodup_length_le {n : Nat} {c : List Nat} (hnd : c.Nodup)
    (hlt : ∀ x ∈ c, x < n) : c.length ≤ n := by
  have h1 : c.toFinset.card = c.length := List.toFinset_card_of_nodup hnd
  have h2 : c.toFinset ⊆ Finset.range n := by
    intro x hx
    rw [Finset.mem_range]
    exact hlt x (List.mem_toFinset.mp hx)
  have := Finset.card_le_card h2
  rw [h1, Finset.card_range] at this
  exact this

/-- On an `n`-vertex graph, every shortest distance is at most `n - 1`. -/
lemma shortest_le {n : Nat} {adj : Nat → List Nat} {s : Nat} (hs : s < n)
    (hadj : ∀ u v, v ∈ adj u → v < n) {v k : Nat}
    (h : IsShortest adj s v k) : k + 1 ≤ n := by
  obtain ⟨c, hlen, hnd, hmem⟩ := shortest_chain h
  have hlt : ∀ x ∈ c, x < n := by
    intro x hx
    obtain ⟨j, _, hshort⟩ := hmem x hx
    exact reaches_lt hs hadj hshort.1
  have := nodup_length_le hnd hlt
  omega

end BFS

namespace BFS

lemma visit_isSome_mono {q : State × List Nat} {e : Nat × Nat} {v : Nat}
    (h : (q.1.dist v).isSome) : ((visit q e).1.dist v).isSome := by
  unfold visit
  rcases hd : q.1.dist e.2 with _ | k0
  · simp only
    by_cases hv : v = e.2
    · subst hv
      simp [Function.update_same]
    · simpa [Function.update_noteq hv] using h
  · exact h

lemma fold_isSome_mono {v : Nat} :
    ∀ (pairs : List (Nat × Nat)) (q : State × List Nat),
      (q.1.dist v).isSome → ((pairs.foldl visit q).1.dist v).isSome := by
  intro pairs
  induction pairs with
  | nil => intro q h; exact h
  | cons e pairs ih =>
    intro q h
    exact ih (visit q e) (visit_isSome_mono h)

lemma visit_mid {adj : Nat → List Nat} {s d : Nat} {st : State}
    (Hdist : ∀ v k, st.dist v = some k ↔ (IsShortest adj s v k ∧ k ≤ d))
    {q : State × List Nat} (hq : Mid adj s d st q) {e : Nat × Nat}
    (he1 : IsShortest adj s e.1 d) (he2 : e.2 ∈ adj e.1) :
    Mid adj s d st (visit q e) ∧ ((visit q e).1.dist e.2).isSome := by
  obtain ⟨M1, M2, M3, M4, M5⟩ := hq
  unfold visit
  rcases hd : q.1.dist e.2 with _ | k0
  case intro.intro.intro.intro.some => exact ⟨⟨M1, M2, M3, M4, M5⟩, by simp [hd]⟩
  case intro.intro.intro.intro.none =>
  simp only
  have hstd1 : st.dist e.1 = some d := (Hdist e.1 d).mpr ⟨he1, Nat.le_refl d⟩
  have hq1 : q.1.dist e.1 = some d := (M1 e.1 d).mpr (Or.inl hstd1)
  have hste2 : st.dist e.2 = none := by
    rcases hst : st.dist e.2 with _ | k
    · rfl
    · have := (M1 e.2 k).mpr (Or.inl hst)
      rw [hd] at this
      cases this
  have he2nf : e.2 ∉ q.2 := by
    intro hmem
    have := (M1 e.2 (d + 1)).mpr (Or.inr ⟨hmem, rfl⟩)
    rw [hd] at this
    cases this
  have hne12 : e.1 ≠ e.2 := by
    intro hx
    rw [hx, hd] at hq1
    cases hq1
  rw [hq1]
  simp only [Option.getD_some]
  refine ⟨⟨?_, ?_, ?_, ?_, ?_⟩, ?_⟩
  all_goals dsimp only
  · -- M1 for the updated state
    intro v k
    by_cases hv : v = e.2
    · subst hv
      rw [Function.update_same]
      constructor
      · intro h
        rcases Option.some.injEq _ _ ▸ h with h'
        have hk : k = d + 1 := by
          cases h
          rfl
        exact Or.inr ⟨List.mem_append_right _ (by simp), hk⟩
      · rintro (h | ⟨_, rfl⟩)
        · rw [hste2] at h
          cases h
        · rfl
    · rw [Function.update_noteq hv]
      rw [M1 v k]
      constructor
      · rintro (h | ⟨h, rfl⟩)
        · exact Or.inl h
        · exact Or.inr ⟨List.mem_append_left _ h, rfl⟩
      · rintro (h | ⟨h, rfl⟩)
        · exact Or.inl h
        · rcases List.mem_append.mp h with h' | h'
          · exact Or.inr ⟨h', rfl⟩
          · rcases List.mem_singleton.mp h' with rfl
            exact absurd rfl hv
  · -- M2
    intro v hv
    rcases List.mem_append.mp hv with h' | h'
    · exact M2 v h'
    · rcases List.mem_singleton.mp h' with rfl
      exact hste2
  · -- M3
    intro v hv
    rcases List.mem_append.mp hv with h' | h'
    · exact M3 v h'
    · rcases List.mem_singleton.mp h' with rfl
      exact ⟨e.1, he1, he2⟩
  · -- M4
    intro e' he'
    rcases List.mem_append.mp he' with h' | h'
    · obtain ⟨hadj', k, h1, h2⟩ := M4 e' h'
      have hne1 : e'.1 ≠ e.2 := by
        intro hx
        rw [hx, hd] at h1
        cases h1
      have hne2 : e'.2 ≠ e.2 := by
        intro hx
        rw [hx, hd] at h2
        cases h2
      exact ⟨hadj', k, by rw [Function.update_noteq hne1]; exact h1,
        by rw [Function.update_noteq hne2]; exact h2⟩
    · rcases List.mem_singleton.mp h' with rfl
      exact ⟨he2, d, by rw [Function.update_noteq hne12]; exact hq1,
        by rw [Function.update_same]⟩
  · -- M5
    intro v
    rw [List.filter_append, List.length_append]
    by_cases hv : e.2 = v
    · subst hv
      have hfilt : (List.filter (fun e' => e'.2 == e.2) [e]).length = 1 := by
        simp [List.filter]
      rw [hfilt, M5 e.2, if_neg he2nf,
        if_pos (List.mem_append_right _ (by simp))]
    · have hbeq : (e.2 == v) = false := beq_eq_false_iff_ne.mpr hv
      have hfilt : (List.filter (fun e' => e'.2 == v) [e]).length = 0 := by
        simp [List.filter, hbeq]
      have hmem : (v ∈ q.2 ++ [e.2]) ↔ v ∈ q.2 := by
        rw [List.mem_append]
        simp [Ne.symm hv]
      rw [hfilt, M5 v]
      by_cases hq2 : v ∈ q.2
      · rw [if_pos hq2, if_pos (hmem.mpr hq2)]
      · rw [if_neg hq2, if_neg (fun h => hq2 (hmem.mp h))]
  · -- the scanned target is now discovered
    rw [Function.update_same]
    rfl

lemma fold_visit_mid {adj : Nat → List Nat} {s d : Nat} {st : State}
    (Hdist : ∀ v k, st.dist v = some k ↔ (IsShortest adj s v k ∧ k ≤ d)) :
    ∀ (pairs : List (Nat × Nat)) (q : State × List Nat),
      (∀ e ∈ pairs, IsShortest adj s e.1 d ∧ e.2 ∈ adj e.1) →
      Mid adj s d st q →
      Mid adj s d st (pairs.foldl visit q) ∧
        (∀ e ∈ pairs, ((pairs.foldl visit q).1.dist e.2).isSome) := by
  intro pairs
  induction pairs with
  | nil =>
    intro q _ hq
    exact ⟨hq, fun e' he' => absurd he' (List.not_mem_nil e')⟩
  | cons e pairs ih =>
    intro q hp hq
    have he := hp e (List.mem_cons_self e pairs)
    obtain ⟨hmid, hsome⟩ := visit_mid Hdist hq he.1 he.2
    obtain ⟨hmidf, hrest⟩ :=
      ih (visit q e) (fun e' he' => hp e' (List.mem_cons_of_mem e he')) hmid
    rw [List.foldl_cons]
    refine ⟨hmidf, ?_⟩
    intro e' he'
    rcases List.mem_cons.mp he' with h | he''
    · subst h
      exact fold_isSome_mono pairs (visit q e') hsome
    · exact hrest e' he''

end BFS

namespace BFS

lemma inv_level {adj : Nat → List Nat} {s d : Nat} {p : State × List Nat}
    (h : Inv adj s d p) : Inv adj s (d + 1) (level adj p.1 p.2) := by
  obtain ⟨Hdist, Hfront, HT, HC⟩ := h
  unfold level
  have hpairs : ∀ e ∈ p.2.flatMap (fun u => (adj u).map (fun v => (u, v))),
      IsShortest adj s e.1 d ∧ e.2 ∈ adj e.1 := by
    intro e he
    rcases List.mem_flatMap.mp he with ⟨u, hu, he'⟩
    rcases List.mem_map.mp he' with ⟨v, hv, rfl⟩
    exact ⟨(Hfront u).mp hu, hv⟩
  have hmid0 : Mid adj s d p.1 (p.1, []) := by
    refine ⟨?_, ?_, ?_, HT, ?_⟩
    · intro v k
      simp
    · intro v hv
      cases hv
    · intro v hv
      cases hv
    · intro v
      simp
  obtain ⟨⟨M1, M2, M3, M4, M5⟩, Hcomp⟩ :=
    fold_visit_mid Hdist _ (p.1, []) hpairs hmid0
  set q := (p.2.flatMap (fun u => (adj u).map (fun v => (u, v)))).foldl visit
    (p.1, []) with hqdef
  have hkey : ∀ v, v ∈ q.2 ↔ IsShortest adj s v (d + 1) := by
    intro v
    constructor
    · intro hv
      obtain ⟨u, hu, hadj⟩ := M3 v hv
      have hreach : Reaches adj s v (d + 1) := Reaches.step hu.1 hadj
      refine ⟨hreach, ?_⟩
      intro j hj
      by_contra hlt
      obtain ⟨j0, hj0⟩ := reachable_shortest ⟨j, hj⟩
      have hj0j : j0 ≤ j := hj0.2 j hj
      have : p.1.dist v = some j0 := (Hdist v j0).mpr ⟨hj0, by omega⟩
      rw [M2 v hv] at this
      cases this
    · intro hshort
      obtain ⟨u, hu, hadj⟩ := shortest_pred hshort
      have humem : u ∈ p.2 := (Hfront u).mpr hu
      have hemem : (u, v) ∈ p.2.flatMap (fun u' => (adj u').map (fun v' => (u', v'))) :=
        List.mem_flatMap.mpr ⟨u, humem, List.mem_map.mpr ⟨v, hadj, rfl⟩⟩
      have hsome := Hcomp (u, v) hemem
      obtain ⟨k, hk⟩ := Option.isSome_iff_exists.mp hsome
      rcases (M1 v k).mp hk with hst | ⟨hnf, rfl⟩
      · have := (Hdist v k).mp hst
        have hne := shortest_unique hshort this.1
        omega
      · exact hnf
  have hsdist : p.1.dist s = some 0 :=
    (Hdist s 0).mpr ⟨shortest_source adj s, Nat.zero_le d⟩
  refine ⟨?_, hkey, M4, ?_⟩
  · intro v k
    rw [M1 v k]
    constructor
    · rintro (hst | ⟨hnf, rfl⟩)
      · obtain ⟨h1, h2⟩ := (Hdist v k).mp hst
        exact ⟨h1, by omega⟩
      · exact ⟨(hkey v).mp hnf, Nat.le_refl _⟩
    · rintro ⟨hshort, hk⟩
      rcases Nat.lt_or_ge k (d + 1) with hlt | hge
      · exact Or.inl ((Hdist v k).mpr ⟨hshort, by omega⟩)
      · have hkd : k = d + 1 := by omega
        subst hkd
        exact Or.inr ⟨(hkey v).mpr hshort, rfl⟩
  · intro v
    rw [M5 v, HC v]
    by_cases hnf : v ∈ q.2
    · have hnone := M2 v hnf
      have hvs : v ≠ s := by
        intro hx
        rw [hx, hsdist] at hnone
        cases hnone
      have hsomef : (q.1.dist v).isSome := by
        rw [(M1 v (d + 1)).mpr (Or.inr ⟨hnf, rfl⟩)]
        rfl
      rw [if_pos hnf, if_neg (by simp [hnone]), if_pos ⟨hvs, hsomef⟩]
    · rw [if_neg hnf]
      have hiff : (q.1.dist v).isSome ↔ (p.1.dist v).isSome := by
        constructor
        · intro hx
          obtain ⟨k, hk⟩ := Option.isSome_iff_exists.mp hx
          rcases (M1 v k).mp hk with hst | ⟨hnf', _⟩
          · rw [hst]; rfl
          · exact absurd hnf' hnf
        · intro hx
          obtain ⟨k, hk⟩ := Option.isSome_iff_exists.mp hx
          rw [(M1 v k).mpr (Or.inl hk)]
          rfl
      by_cases hcond : v ≠ s ∧ (p.1.dist v).isSome
      · rw [if_pos hcond, if_pos ⟨hcond.1, hiff.mpr hcond.2⟩]
      · rw [if_neg hcond, if_neg (fun hx => hcond ⟨hx.1, hiff.mp hx.2⟩)]

lemma inv_run (adj : Nat → List Nat) (s : Nat) :
    ∀ d, Inv adj s d (run adj s d) := by
  intro d
  induction d with
  | zero =>
    refine ⟨?_, ?_, ?_, ?_⟩
    · intro v k
      dsimp [run]
      by_cases hv : v = s
      · subst hv
        rw [if_pos rfl]
        constructor
        · intro h
          cases h
          exact ⟨shortest_source adj v, Nat.le_refl 0⟩
        · rintro ⟨hshort, hk⟩
          have h0 : k = 0 := by omega
          subst h0
          rw [shortest_unique hshort (shortest_source adj v)]
      · rw [if_neg hv]
        constructor
        · intro h; cases h
        · rintro ⟨hshort, hk⟩
          have h0 : k = 0 := by omega
          subst h0
          exact absurd (shortest_zero hshort) hv
    · intro v
      dsimp [run]
      constructor
      · intro hv
        rcases List.mem_singleton.mp hv with rfl
        exact shortest_source adj v
      · intro hshort
        rw [shortest_zero hshort]
        simp
    · intro e he
      cases he
    · intro v
      dsimp [run]
      by_cases hv : v = s
      · subst hv
        rw [if_neg (by simp)]
      · have hc : ¬(v ≠ s ∧
            ((if v = s then some 0 else none : Option Nat)).isSome = true) := by
          rintro ⟨_, hsome⟩
          rw [if_neg hv] at hsome
          cases hsome
        rw [if_neg hc]
  | succ d ih =>
    exact inv_level ih

end BFS

/-- Claim C5.  For every finite graph given by adjacency lists on vertices
`[0, n)` (the shape of the co-appearance graph) and every source `s`, BFS
with the `bacon_number_recorder` visitor satisfies: the recorded distance of
`v` is `some k` exactly when `k` is the minimum number of edges on any path
from `s` to `v`; vertices unreachable from `s` remain unset; every reachable
non-source vertex receives exactly one tree-edge event; and every tree edge
is a graph edge whose target's recorded distance is its source's plus one
(the visitor's `d[v] = d[u] + 1`). -/
theorem kevin_bacon_bfs_correct (n : Nat) (adj : Nat → List Nat) (s : Nat)
    (hs : s < n) (hadj : ∀ u v, v ∈ adj u → v < n) :
    (∀ v k, (BFS.bfs n adj s).dist v = some k ↔ BFS.IsShortest adj s v k) ∧
    (∀ v, ¬ BFS.Reachable adj s v → (BFS.bfs n adj s).dist v = none) ∧
    (∀ v, BFS.Reachable adj s v → v ≠ s →
        ((BFS.bfs n adj s).tree.filter (fun e => e.2 == v)).length = 1) ∧
    (∀ e ∈ (BFS.bfs n adj s).tree, e.2 ∈ adj e.1 ∧
        ∃ k, (BFS.bfs n adj s).dist e.1 = some k ∧
          (BFS.bfs n adj s).dist e.2 = some (k + 1)) := by
  obtain ⟨Hdist, Hfront, HT, HC⟩ := BFS.inv_run adj s n
  have hiff : ∀ v k, (BFS.bfs n adj s).dist v = some k ↔ BFS.IsShortest adj s v k := by
    intro v k
    rw [BFS.bfs, Hdist v k]
    constructor
    · exact fun h => h.1
    · intro h
      exact ⟨h, by have := BFS.shortest_le hs hadj h; omega⟩
  refine ⟨hiff, ?_, ?_, ?_⟩
  · intro v hunreach
    rcases hd : (BFS.bfs n adj s).dist v with _ | k
    · rfl
    · have := ((hiff v k).mp hd).1
      exact absurd ⟨k, this⟩ hunreach
  · intro v hreach hvs
    obtain ⟨k, hk⟩ := BFS.reachable_shortest hreach
    have hsome : ((BFS.bfs n adj s).dist v).isSome := by
      rw [(hiff v k).mpr hk]
      rfl
    rw [BFS.bfs] at hsome ⊢
    rw [HC v, if_pos ⟨hvs, hsome⟩]
  · intro e he
    exact HT e he

/-- Witness for `kevin_bacon_bfs_correct` on the path graph `0 → 1 → 2`. -/
theorem kevin_bacon_bfs_correct_witness :
    0 < 3 ∧ (∀ u v, v ∈ BFS.pathAdj u → v < 3) ∧
    ((∀ v k, (BFS.bfs 3 BFS.pathAdj 0).dist v = some k ↔
        BFS.IsShortest BFS.pathAdj 0 v k) ∧
     (∀ v, ¬ BFS.Reachable BFS.pathAdj 0 v → (BFS.bfs 3 BFS.pathAdj 0).dist v = none) ∧
     (∀ v, BFS.Reachable BFS.pathAdj 0 v → v ≠ 0 →
        ((BFS.bfs 3 BFS.pathAdj 0).tree.filter (fun e => e.2 == v)).length = 1) ∧
     (∀ e ∈ (BFS.bfs 3 BFS.pathAdj 0).tree, e.2 ∈ BFS.pathAdj e.1 ∧
        ∃ k, (BFS.bfs 3 BFS.pathAdj 0).dist e.1 = some k ∧
          (BFS.bfs 3 BFS.pathAdj 0).dist e.2 = some (k + 1))) :=
  have hadj : ∀ u v, v ∈ BFS.pathAdj u → v < 3 := by
    intro u v h
    match u with
    | 0 => simp [BFS.pathAdj] at h; omega
    | 1 => simp [BFS.pathAdj] at h; omega
    | w + 2 => simp [BFS.pathAdj] at h
  ⟨by decide, hadj, kevin_bacon_bfs_correct 3 BFS.pathAdj 0 (by decide) hadj⟩
